import Mathlib

/-!
# doc-slurp incremental scrape engine — verification of the specification

Shallow embedding of `src/lib/scraper.ts` (`scrapeOrg`) and the data model of
`src/lib/types.ts`.  JavaScript objects used as string-keyed dictionaries
(`Record<string, T>`) are embedded as insertion-ordered association lists:
assignment to an existing key replaces the value in place, assignment to a
fresh key appends at the end, matching JS object key ordering.

The remote GitHub client (`createOctokit` / `listOrgRepos` / `getRepoTree` /
`getFileContent` from `src/lib/github.ts`) is the external collaborator the
engine consumes; it is embedded as an oracle structure whose operations return
`Except` (a thrown JS exception becomes `.error`).  The engine's
`try`/`catch` handlers become total pattern matches on those `Except` results;
an uncaught exception (only possible from `listOrgRepos`) becomes an `.error`
result of the whole run.

Time: the model reads the clock once per run (`now : Nat`, Unix ms); the
source calls `new Date().toISOString()` once at the start (for `lastScrape`,
modelled with the same clock value) and `Date.now()` per file.

The `onProgress` callback is modelled by collecting the sequence of emitted
`ScrapeProgress` events in order in the run result.
-/

namespace DocSlurp

/-- Insertion-ordered string-keyed dictionary, as a JS object. -/
abbrev AList (α : Type) := List (String × α)

/-- Dictionary lookup (`obj[key]`, `undefined` becomes `none`). -/
def lookupA {α : Type} : AList α → String → Option α
  | [], _ => none
  | (k, v) :: rest, key => if k = key then some v else lookupA rest key

/-- Dictionary assignment (`obj[key] = v`): replace in place if the key is
present, else append at the end. -/
def setA {α : Type} : AList α → String → α → AList α
  | [], key, v => [(key, v)]
  | (k, w) :: rest, key, v =>
    if k = key then (key, v) :: rest else (k, w) :: setA rest key v

/-- `src/lib/types.ts` `FileEntry`.  `lastFetched` is declared `number` in the
TS type but a previously persisted state may lack it (the code guards with
`?? Date.now()`), so it is embedded as `Option Nat`. -/
structure FileEntry where
  sha : String
  lastFetched : Option Nat
deriving DecidableEq

/-- `src/lib/types.ts` `RepoCache`. -/
structure RepoCache where
  files : AList FileEntry
deriving DecidableEq

/-- `src/lib/types.ts` `ScrapeState`.  `lastScrape` is an ISO timestamp
string in the source; modelled by the numeric clock value. -/
structure ScrapeState where
  repos : AList RepoCache
  lastScrape : Option Nat
deriving DecidableEq

/-- `src/lib/types.ts` `ScrapedFile`. -/
structure ScrapedFile where
  repo : String
  path : String
  content : String
  sha : String
deriving DecidableEq

/-- The `phase` union of `src/lib/types.ts` `ScrapeProgress`
(`'repos' | 'tree' | 'files' | 'done' | 'error'`). -/
inductive Phase where
  | repos
  | tree
  | files
  | done
  | error
deriving DecidableEq

/-- `src/lib/types.ts` `ScrapeProgress`. -/
structure ScrapeProgress where
  phase : Phase
  repo : Option String
  fetched : Nat
  skipped : Nat
  total : Nat
  message : Option String
deriving DecidableEq

/-- Repository descriptor as produced by `listOrgRepos`
(`{ name, full_name, default_branch }`). -/
structure RepoD where
  name : String
  full_name : String
  default_branch : String
deriving DecidableEq

/-- A tree entry as returned by `getRepoTree`
(`{ path, sha, type }`; the `type` field is spelled `typ`). -/
structure TreeEntry where
  path : String
  sha : String
  typ : String
deriving DecidableEq

/-- `src/lib/types.ts` `ScrapeConfig`.  `repoFilter` is a `RegExp` in the
source, used only through `repoFilter.test(r.name)`; it is embedded as the
induced predicate on the short name. -/
structure ScrapeConfig where
  org : String
  token : Option String
  repoFilter : Option (String → Bool)

/-- The remote GitHub client consumed by the engine: the results of
`listOrgRepos`, `getRepoTree (owner repo branch)` and
`getFileContent (owner repo path)`, with thrown exceptions as `.error`. -/
structure Remote where
  listRepos : Except String (List RepoD)
  getTree : String → String → String → Except String (List TreeEntry)
  getContent : String → String → String → Except String String

/-- Result of one run: the newly scraped files, the new state, and the
sequence of progress events emitted to the sink, in order. -/
structure ScrapeResult where
  files : List ScrapedFile
  state : ScrapeState
  events : List ScrapeProgress
deriving DecidableEq

/-- Split a character list at every occurrence of `c`
(JS `String.prototype.split` with a one-character separator). -/
def splitChar (c : Char) : List Char → List (List Char)
  | [] => [[]]
  | x :: xs =>
    let rest := splitChar c xs
    if x = c then [] :: rest
    else
      match rest with
      | [] => [x] :: []
      | r :: rs => (x :: r) :: rs

/-- `s.split('/')`. -/
def splitSlash (s : String) : List String :=
  (splitChar '/' s.toList).map String.mk

/-- `repo.full_name.split('/')[0]` (the `owner` of the destructuring). -/
def ownerOf (full_name : String) : String :=
  (splitSlash full_name).getD 0 ""

/-- `repo.full_name.split('/')[1]` (the `repoName` of the destructuring). -/
def repoNameOf (full_name : String) : String :=
  (splitSlash full_name).getD 1 ""

/-- `prevState.repos[repo.full_name]?.files[file.path]`. -/
def prevEntryFor (prevState : ScrapeState) (fullName path : String) :
    Option FileEntry :=
  (lookupA prevState.repos fullName).bind (fun c => lookupA c.files path)

/-- Accumulator of the per-file loop of `scrapeOrg`: the repository bucket
being filled plus the running outputs and counters. -/
structure FileSt where
  bucket : AList FileEntry
  results : List ScrapedFile
  fetched : Nat
  skipped : Nat
  events : List ScrapeProgress

/-- The fetch branch of the per-file loop: emit the `files` event with the
"Fetching…" message, then `getFileContent`; on success push the scraped file
and bump `totalFetched`, on failure only warn. -/
def fetchFile (remote : Remote) (fullName owner repoName : String)
    (total : Nat) (st : FileSt) (file : TreeEntry) : FileSt :=
  let ev : ScrapeProgress :=
    { phase := .files, repo := some fullName, fetched := st.fetched,
      skipped := st.skipped, total := total,
      message := some ("Fetching " ++ fullName ++ "/" ++ file.path) }
  match remote.getContent owner repoName file.path with
  | .ok content =>
    { st with
      results := st.results ++
        [{ repo := fullName, path := file.path, content := content,
           sha := file.sha }]
      fetched := st.fetched + 1
      events := st.events ++ [ev] }
  | .error _ => { st with events := st.events ++ [ev] }

/-- One iteration of the per-file loop of `scrapeOrg`: record the new cache
entry (carrying the previous `lastFetched` forward when the sha is unchanged),
then either skip (sha unchanged) or fetch. -/
def processFile (remote : Remote) (prevState : ScrapeState)
    (fullName owner repoName : String) (now total : Nat)
    (st : FileSt) (file : TreeEntry) : FileSt :=
  match prevEntryFor prevState fullName file.path with
  | some pe =>
    if pe.sha = file.sha then
      let entry : FileEntry :=
        { sha := file.sha, lastFetched := some (pe.lastFetched.getD now) }
      let ev : ScrapeProgress :=
        { phase := .files, repo := some fullName, fetched := st.fetched,
          skipped := st.skipped + 1, total := total, message := none }
      { st with
        bucket := setA st.bucket file.path entry
        skipped := st.skipped + 1
        events := st.events ++ [ev] }
    else
      let entry : FileEntry := { sha := file.sha, lastFetched := some now }
      fetchFile remote fullName owner repoName total
        { st with bucket := setA st.bucket file.path entry } file
  | none =>
    let entry : FileEntry := { sha := file.sha, lastFetched := some now }
    fetchFile remote fullName owner repoName total
      { st with bucket := setA st.bucket file.path entry } file

/-- Accumulator of the per-repository loop of `scrapeOrg`. -/
structure St where
  repos : AList RepoCache
  results : List ScrapedFile
  fetched : Nat
  skipped : Nat
  total : Nat
  events : List ScrapeProgress

/-- One iteration of the per-repository loop of `scrapeOrg`: emit the `tree`
event, list the tree (on failure warn and continue with the next repository),
grow the running total, create the fresh bucket and run the per-file loop. -/
def processRepo (remote : Remote) (prevState : ScrapeState) (now : Nat)
    (st : St) (repo : RepoD) : St :=
  let owner := ownerOf repo.full_name
  let repoName := repoNameOf repo.full_name
  let events := st.events ++
    [{ phase := .tree, repo := some repo.full_name, fetched := st.fetched,
       skipped := st.skipped, total := st.total, message := none }]
  match remote.getTree owner repoName repo.default_branch with
  | .error _ => { st with events := events }
  | .ok mdFiles =>
    let total := st.total + mdFiles.length
    let final := mdFiles.foldl
      (processFile remote prevState repo.full_name owner repoName now total)
      { bucket := [], results := st.results, fetched := st.fetched,
        skipped := st.skipped, events := events }
    { repos := setA st.repos repo.full_name { files := final.bucket }
      results := final.results
      fetched := final.fetched
      skipped := final.skipped
      total := total
      events := final.events }

/-- `repoFilter ? allRepos.filter((r) => repoFilter.test(r.name)) : allRepos`. -/
def filteredRepos (config : ScrapeConfig) (allRepos : List RepoD) :
    List RepoD :=
  match config.repoFilter with
  | some f => allRepos.filter (fun r => f r.name)
  | none => allRepos

/-- The initial `repos`-phase event
(`emit({ phase: 'repos', message: ... })`). -/
def listingEvent (config : ScrapeConfig) : ScrapeProgress :=
  { phase := .repos, repo := none, fetched := 0, skipped := 0, total := 0,
    message := some ("Listing repositories for " ++ config.org ++ "…") }

/-- The loop accumulator at the start of the per-repository loop: empty new
store, no results, zeroed counters, the listing event already emitted. -/
def initialSt (config : ScrapeConfig) : St :=
  { repos := [], results := [], fetched := 0, skipped := 0, total := 0,
    events := [listingEvent config] }

/-- The final `done` event (`emit({ phase: 'done', fetched, skipped,
total })`). -/
def doneEvent (final : St) : ScrapeProgress :=
  { phase := .done, repo := none, fetched := final.fetched,
    skipped := final.skipped, total := final.total, message := none }

/-- `scrapeOrg(config, prevState)` from `src/lib/scraper.ts`.  `now` is the
clock reading of the run.  A failure of `listOrgRepos` propagates as `.error`
(the only uncaught exception path); every other failure is handled inside. -/
def scrapeOrg (config : ScrapeConfig) (remote : Remote) (now : Nat)
    (prevState : ScrapeState) : Except String ScrapeResult :=
  match remote.listRepos with
  | .error e => .error e
  | .ok allRepos =>
    let repos := filteredRepos config allRepos
    let final := repos.foldl (processRepo remote prevState now)
      (initialSt config)
    .ok { files := final.results
          state := { repos := final.repos, lastScrape := some now }
          events := final.events ++ [doneEvent final] }

/-- The files of a run, `[]` when the run failed. -/
def runFiles (config : ScrapeConfig) (remote : Remote) (now : Nat)
    (prevState : ScrapeState) : List ScrapedFile :=
  match scrapeOrg config remote now prevState with
  | .ok r => r.files
  | .error _ => []

/-- The new state of a run, the empty state when the run failed. -/
def runState (config : ScrapeConfig) (remote : Remote) (now : Nat)
    (prevState : ScrapeState) : ScrapeState :=
  match scrapeOrg config remote now prevState with
  | .ok r => r.state
  | .error _ => { repos := [], lastScrape := none }

/-- The progress-event trace of a run, `[]` when the run failed. -/
def runEvents (config : ScrapeConfig) (remote : Remote) (now : Nat)
    (prevState : ScrapeState) : List ScrapeProgress :=
  match scrapeOrg config remote now prevState with
  | .ok r => r.events
  | .error _ => []

/-! ## Closed forms of the run (derived from the loop structure) -/

/-- `prevEntry?.sha === file.sha`: the file is skipped this round. -/
def willSkip (prevState : ScrapeState) (fullName : String)
    (file : TreeEntry) : Bool :=
  match prevEntryFor prevState fullName file.path with
  | some pe => pe.sha = file.sha
  | none => false

/-- The cache entry `scrapeOrg` records for one tree entry. -/
def entryFor (prevState : ScrapeState) (fullName : String) (now : Nat)
    (file : TreeEntry) : FileEntry :=
  match prevEntryFor prevState fullName file.path with
  | some pe =>
    if pe.sha = file.sha then
      { sha := file.sha, lastFetched := some (pe.lastFetched.getD now) }
    else { sha := file.sha, lastFetched := some now }
  | none => { sha := file.sha, lastFetched := some now }

/-- The scraped-file record a content fetch produces (`none` on failure). -/
def fetchRecord (remote : Remote) (fullName owner repoName : String)
    (file : TreeEntry) : Option ScrapedFile :=
  match remote.getContent owner repoName file.path with
  | .ok content =>
    some { repo := fullName, path := file.path, content := content,
           sha := file.sha }
  | .error _ => none

/-- The output record one tree entry contributes: nothing when skipped,
otherwise the fetch outcome. -/
def fileRecord (remote : Remote) (prevState : ScrapeState)
    (fullName owner repoName : String) (file : TreeEntry) :
    Option ScrapedFile :=
  if willSkip prevState fullName file then none
  else fetchRecord remote fullName owner repoName file

/-- The tree listing for one repository. -/
def treeOf (remote : Remote) (r : RepoD) : Except String (List TreeEntry) :=
  remote.getTree (ownerOf r.full_name) (repoNameOf r.full_name)
    r.default_branch

/-- The output records one repository contributes. -/
def repoFiles (remote : Remote) (prevState : ScrapeState) (r : RepoD) :
    List ScrapedFile :=
  match treeOf remote r with
  | .error _ => []
  | .ok mdFiles =>
    mdFiles.filterMap
      (fileRecord remote prevState r.full_name (ownerOf r.full_name)
        (repoNameOf r.full_name))

/-- The fresh bucket built for one repository from its tree entries. -/
def bucketFor (prevState : ScrapeState) (fullName : String) (now : Nat)
    (mdFiles : List TreeEntry) : AList FileEntry :=
  mdFiles.foldl
    (fun b f => setA b f.path (entryFor prevState fullName now f)) []

/-- How one repository updates the new store's repository map. -/
def repoStep (remote : Remote) (prevState : ScrapeState) (now : Nat)
    (m : AList RepoCache) (r : RepoD) : AList RepoCache :=
  match treeOf remote r with
  | .error _ => m
  | .ok mdFiles =>
    setA m r.full_name
      { files := bucketFor prevState r.full_name now mdFiles }

/-- Closed form of the new store's repository map. -/
def reposSpec (remote : Remote) (prevState : ScrapeState) (now : Nat)
    (repos : List RepoD) : AList RepoCache :=
  repos.foldl (repoStep remote prevState now) []

/-- Closed form of the output file list. -/
def filesSpec (remote : Remote) (prevState : ScrapeState)
    (repos : List RepoD) : List ScrapedFile :=
  repos.flatMap (repoFiles remote prevState)

/-! ## Progress-event predicates -/

/-- The phases `scrapeOrg` can actually emit (all of `Phase` except
`error`). -/
def goodPhase (e : ScrapeProgress) : Prop :=
  e.phase = .repos ∨ e.phase = .tree ∨ e.phase = .files ∨ e.phase = .done

/-- Progress ordering between two events: `fetched + skipped` and `total`
never decrease. -/
def evLE (a b : ScrapeProgress) : Prop :=
  a.fetched + a.skipped ≤ b.fetched + b.skipped ∧ a.total ≤ b.total

/-- Invariant tying the trace emitted so far to the running counters of the
scrape loops. -/
structure EventsInv (allowed : List String) (fetched skipped total : Nat)
    (results : List ScrapedFile) (events : List ScrapeProgress) : Prop where
  phases : ∀ e ∈ events, goodPhase e
  mono : events.Chain' evLE
  bounded : ∀ e ∈ events,
    e.fetched + e.skipped ≤ fetched + skipped ∧ e.total ≤ total
  repoNames : ∀ e ∈ events, ∀ rn, e.repo = some rn → rn ∈ allowed
  count : results.length = fetched

/-! ## Concrete scenario (mirrors the fixtures of
`src/lib/__tests__/scraper.test.ts`) -/

def repoA : RepoD :=
  { name := "repo-a", full_name := "test-org/repo-a",
    default_branch := "main" }

def repoB : RepoD :=
  { name := "repo-b", full_name := "test-org/repo-b",
    default_branch := "main" }

def treeA : List TreeEntry :=
  [{ path := "README.md", sha := "sha-readme-a", typ := "blob" },
   { path := "docs/guide.md", sha := "sha-guide-a", typ := "blob" }]

def treeB : List TreeEntry :=
  [{ path := "README.md", sha := "sha-readme-b", typ := "blob" }]

/-- A healthy remote: two repositories, all requests succeed. -/
def remX : Remote :=
  { listRepos := .ok [repoA, repoB]
    getTree := fun _ rn _ => if rn = "repo-a" then .ok treeA else .ok treeB
    getContent := fun _ rn p => .ok ("# Content of " ++ rn ++ "/" ++ p) }

/-- A remote whose tree listing fails for `repo-b`. -/
def remY : Remote :=
  { listRepos := .ok [repoA, repoB]
    getTree := fun _ rn _ =>
      if rn = "repo-a" then .ok treeA else .error "boom"
    getContent := fun _ rn p => .ok ("# Content of " ++ rn ++ "/" ++ p) }

/-- A remote whose content fetch fails for `docs/guide.md`. -/
def remZ : Remote :=
  { listRepos := .ok [repoA, repoB]
    getTree := fun _ rn _ => if rn = "repo-a" then .ok treeA else .ok treeB
    getContent := fun _ rn p =>
      if p = "docs/guide.md" then .error "nope"
      else .ok ("# Content of " ++ rn ++ "/" ++ p) }

def cfgX : ScrapeConfig :=
  { org := "test-org", token := none, repoFilter := none }

/-- Configuration with a repository filter matching only `repo-a`. -/
def cfgF : ScrapeConfig :=
  { org := "test-org", token := none,
    repoFilter := some (fun n => n = "repo-a") }

def emptyState : ScrapeState := { repos := [], lastScrape := none }

/-- A previous state for `repo-a` holding `README.md` with its current
fingerprint and a stale path `old.md` that the current tree no longer
reports. -/
def prevS : ScrapeState :=
  ScrapeState.mk
    [("test-org/repo-a", RepoCache.mk
      [("README.md", FileEntry.mk "sha-readme-a" (some 50)),
       ("old.md", FileEntry.mk "sha-old" (some 50))])]
    (some 50)

/-! ## Dictionary lemmas -/

theorem lookupA_setA {α : Type} (m : AList α) (k : String) (v : α)
    (p : String) :
    lookupA (setA m k v) p = if k = p then some v else lookupA m p := by
  induction m with
  | nil => by_cases h : k = p <;> simp [setA, lookupA, h]
  | cons kv rest ih =>
    obtain ⟨k', w⟩ := kv
    by_cases hk : k' = k
    · subst hk
      by_cases hp : k' = p <;> simp [setA, lookupA, hp]
    · simp only [setA, if_neg hk, lookupA]
      by_cases hp : k' = p
      · subst hp
        have h2 : ¬k = k' := fun h => hk h.symm
        simp [h2]
      · simp [hp, ih]

/-- Folding key/value insertions over a list does not touch keys the list
does not mention. -/
theorem lookupA_foldl_setA_not_mem {ι α : Type} (key : ι → String)
    (val : ι → α) (l : List ι) (b : AList α) (p : String)
    (h : p ∉ l.map key) :
    lookupA (l.foldl (fun m i => setA m (key i) (val i)) b) p =
      lookupA b p := by
  induction l generalizing b with
  | nil => rfl
  | cons i l ih =>
    simp only [List.map_cons, List.mem_cons, not_or] at h
    simp only [List.foldl_cons]
    rw [ih _ h.2, lookupA_setA, if_neg (fun hh => h.1 hh.symm)]

/-- Folding key/value insertions: the key of a member whose key does not
recur later maps to that member's value. -/
theorem lookupA_foldl_setA_self {ι α : Type} (key : ι → String)
    (val : ι → α) (l₁ l₂ : List ι) (x : ι) (b : AList α)
    (h : key x ∉ l₂.map key) :
    lookupA ((l₁ ++ x :: l₂).foldl (fun m i => setA m (key i) (val i)) b)
      (key x) = some (val x) := by
  rw [List.foldl_append, List.foldl_cons,
    lookupA_foldl_setA_not_mem key val l₂ _ _ h, lookupA_setA]
  simp

/-- A key is present after folding insertions iff it was present before or
the list mentions it. -/
theorem lookupA_foldl_setA_isSome {ι α : Type} (key : ι → String)
    (val : ι → α) (l : List ι) (b : AList α) (p : String) :
    (lookupA (l.foldl (fun m i => setA m (key i) (val i)) b) p).isSome ↔
      (lookupA b p).isSome ∨ p ∈ l.map key := by
  induction l generalizing b with
  | nil => simp
  | cons i l ih =>
    simp only [List.foldl_cons, ih, lookupA_setA, List.map_cons,
      List.mem_cons]
    by_cases hp : key i = p
    · simp [hp]
    · have h2 : ¬p = key i := fun hh => hp hh.symm
      simp [hp, h2]

/-! ## Loop characterizations -/

theorem processFile_char (remote : Remote) (prevState : ScrapeState)
    (fullName owner repoName : String) (now total : Nat)
    (st : FileSt) (file : TreeEntry) :
    (processFile remote prevState fullName owner repoName now total
        st file).bucket =
      setA st.bucket file.path (entryFor prevState fullName now file) ∧
    (processFile remote prevState fullName owner repoName now total
        st file).results =
      st.results ++
        (fileRecord remote prevState fullName owner repoName file).toList ∧
    (processFile remote prevState fullName owner repoName now total
        st file).fetched =
      st.fetched +
        (fileRecord remote prevState fullName owner repoName file).toList.length ∧
    (processFile remote prevState fullName owner repoName now total
        st file).skipped =
      st.skipped + (if willSkip prevState fullName file then 1 else 0) := by
  cases hpe : prevEntryFor prevState fullName file.path with
  | none =>
    simp only [processFile, entryFor, fileRecord, willSkip, fetchRecord,
      fetchFile, hpe]
    cases hc : remote.getContent owner repoName file.path <;> simp [hc]
  | some pe =>
    by_cases hsha : pe.sha = file.sha
    · simp [processFile, entryFor, fileRecord, willSkip, fetchRecord,
        fetchFile, hpe, hsha]
    · simp only [processFile, entryFor, fileRecord, willSkip, fetchRecord,
        fetchFile, hpe, if_neg hsha]
      cases hc : remote.getContent owner repoName file.path <;>
        simp [hc, hsha]

theorem fileFold_char (remote : Remote) (prevState : ScrapeState)
    (fullName owner repoName : String) (now total : Nat)
    (md : List TreeEntry) (st : FileSt) :
    (md.foldl (processFile remote prevState fullName owner repoName now
        total) st).bucket =
      md.foldl (fun b f => setA b f.path (entryFor prevState fullName now f))
        st.bucket ∧
    (md.foldl (processFile remote prevState fullName owner repoName now
        total) st).results =
      st.results ++
        md.filterMap (fileRecord remote prevState fullName owner repoName) ∧
    (md.foldl (processFile remote prevState fullName owner repoName now
        total) st).fetched =
      st.fetched +
        (md.filterMap (fileRecord remote prevState fullName owner
          repoName)).length ∧
    (md.foldl (processFile remote prevState fullName owner repoName now
        total) st).skipped =
      st.skipped + md.countP (willSkip prevState fullName) := by
  induction md generalizing st with
  | nil => simp
  | cons f md ih =>
    obtain ⟨hb, hr, hf, hs⟩ :=
      processFile_char remote prevState fullName owner repoName now total
        st f
    obtain ⟨ihb, ihr, ihf, ihs⟩ :=
      ih (processFile remote prevState fullName owner repoName now total
        st f)
    simp only [List.foldl_cons, List.filterMap_cons, List.countP_cons]
    refine ⟨?_, ?_, ?_, ?_⟩
    · rw [ihb, hb]
    · rw [ihr, hr]
      cases hfr : fileRecord remote prevState fullName owner repoName f <;>
        simp [hfr]
    · rw [ihf, hf]
      cases hfr : fileRecord remote prevState fullName owner repoName f <;>
        simp [hfr] <;> omega
    · rw [ihs, hs]
      by_cases hws : willSkip prevState fullName f <;> simp [hws] <;> omega

theorem processRepo_char (remote : Remote) (prevState : ScrapeState)
    (now : Nat) (st : St) (r : RepoD) :
    (processRepo remote prevState now st r).repos =
      repoStep remote prevState now st.repos r ∧
    (processRepo remote prevState now st r).results =
      st.results ++ repoFiles remote prevState r ∧
    (processRepo remote prevState now st r).fetched =
      st.fetched + (repoFiles remote prevState r).length := by
  cases ht : treeOf remote r with
  | error e =>
    simp only [treeOf] at ht
    simp [processRepo, repoStep, repoFiles, treeOf, ht]
  | ok md =>
    simp only [treeOf] at ht
    obtain ⟨hb, hr, hf, _⟩ :=
      fileFold_char remote prevState r.full_name (ownerOf r.full_name)
        (repoNameOf r.full_name) now (st.total + md.length) md
        { bucket := [], results := st.results, fetched := st.fetched,
          skipped := st.skipped,
          events := st.events ++
            [{ phase := .tree, repo := some r.full_name,
               fetched := st.fetched, skipped := st.skipped,
               total := st.total, message := none }] }
    simp only [processRepo, repoStep, repoFiles, treeOf, ht, bucketFor]
    exact ⟨by rw [hb], by rw [hr], by rw [hf]⟩

theorem repoFold_char (remote : Remote) (prevState : ScrapeState)
    (now : Nat) (rs : List RepoD) (st : St) :
    (rs.foldl (processRepo remote prevState now) st).repos =
      rs.foldl (repoStep remote prevState now) st.repos ∧
    (rs.foldl (processRepo remote prevState now) st).results =
      st.results ++ filesSpec remote prevState rs ∧
    (rs.foldl (processRepo remote prevState now) st).fetched =
      st.fetched + (filesSpec remote prevState rs).length := by
  induction rs generalizing st with
  | nil => simp [filesSpec]
  | cons r rs ih =>
    obtain ⟨hp, hr, hf⟩ := processRepo_char remote prevState now st r
    obtain ⟨ihp, ihr, ihf⟩ := ih (processRepo remote prevState now st r)
    simp only [List.foldl_cons, filesSpec, List.flatMap_cons]
    refine ⟨by rw [ihp, hp], ?_, ?_⟩
    · rw [ihr, hr]
      simp [filesSpec]
    · rw [ihf, hf]
      simp [filesSpec]
      omega

theorem scrape_char (config : ScrapeConfig) (remote : Remote) (now : Nat)
    (prevState : ScrapeState) (allRepos : List RepoD)
    (h : remote.listRepos = .ok allRepos) :
    runFiles config remote now prevState =
      filesSpec remote prevState (filteredRepos config allRepos) ∧
    (runState config remote now prevState).repos =
      reposSpec remote prevState now (filteredRepos config allRepos) ∧
    (runState config remote now prevState).lastScrape = some now := by
  obtain ⟨hp, hr, _⟩ := repoFold_char remote prevState now
    (filteredRepos config allRepos) (initialSt config)
  simp only [runFiles, runState, scrapeOrg, h]
  refine ⟨?_, ?_, trivial⟩
  · rw [hr]
    simp [initialSt]
  · rw [hp]
    rfl

/-! ## Store lookup lemmas -/

theorem entryFor_sha (prevState : ScrapeState) (fullName : String)
    (now : Nat) (t : TreeEntry) :
    (entryFor prevState fullName now t).sha = t.sha := by
  unfold entryFor
  cases prevEntryFor prevState fullName t.path with
  | none => rfl
  | some pe => by_cases h : pe.sha = t.sha <;> simp [h]

theorem entryFor_lastFetched_isSome (prevState : ScrapeState)
    (fullName : String) (now : Nat) (t : TreeEntry) :
    ∃ x, (entryFor prevState fullName now t).lastFetched = some x := by
  unfold entryFor
  cases prevEntryFor prevState fullName t.path with
  | none => exact ⟨now, rfl⟩
  | some pe =>
    by_cases h : pe.sha = t.sha
    · exact ⟨pe.lastFetched.getD now, by simp [h]⟩
    · exact ⟨now, by simp [h]⟩

/-- Folding repository steps over repositories whose name is not `p` (or
whose tree listing failed) leaves the key `p` untouched. -/
theorem reposFold_lookup_of_fail (remote : Remote) (prevState : ScrapeState)
    (now : Nat) (rs : List RepoD) (m : AList RepoCache) (p : String)
    (h : ∀ r ∈ rs, r.full_name = p → ∃ e, treeOf remote r = .error e) :
    lookupA (rs.foldl (repoStep remote prevState now) m) p = lookupA m p := by
  induction rs generalizing m with
  | nil => rfl
  | cons r rs ih =>
    simp only [List.foldl_cons]
    rw [ih _ (fun r' hr' => h r' (List.mem_cons_of_mem _ hr'))]
    unfold repoStep
    cases ht : treeOf remote r with
    | error e => rfl
    | ok md =>
      rw [lookupA_setA, if_neg]
      intro hfn
      obtain ⟨e, he⟩ := h r (List.mem_cons_self r rs) hfn
      rw [ht] at he
      cases he

theorem reposFold_lookup_not_mem (remote : Remote) (prevState : ScrapeState)
    (now : Nat) (rs : List RepoD) (m : AList RepoCache) (p : String)
    (h : p ∉ rs.map RepoD.full_name) :
    lookupA (rs.foldl (repoStep remote prevState now) m) p = lookupA m p := by
  induction rs generalizing m with
  | nil => rfl
  | cons r rs ih =>
    simp only [List.map_cons, List.mem_cons, not_or] at h
    simp only [List.foldl_cons]
    rw [ih _ h.2]
    unfold repoStep
    cases ht : treeOf remote r with
    | error e => rfl
    | ok md => rw [lookupA_setA, if_neg (fun hh => h.1 hh.symm)]

/-- In the new store, a repository with a distinct full name and a
successful tree listing maps to exactly the bucket freshly built from its
tree entries. -/
theorem reposSpec_lookup (remote : Remote) (prevState : ScrapeState)
    (now : Nat) (rs : List RepoD) (r : RepoD) (md : List TreeEntry)
    (hmem : r ∈ rs) (hnodup : (rs.map RepoD.full_name).Nodup)
    (hok : treeOf remote r = .ok md) :
    lookupA (reposSpec remote prevState now rs) r.full_name =
      some { files := bucketFor prevState r.full_name now md } := by
  obtain ⟨l₁, l₂, rfl⟩ := List.append_of_mem hmem
  have hnot : r.full_name ∉ l₂.map RepoD.full_name := by
    simp only [List.map_append, List.map_cons] at hnodup
    exact (List.nodup_cons.1 hnodup.of_append_right).1
  unfold reposSpec
  rw [List.foldl_append, List.foldl_cons,
    reposFold_lookup_not_mem remote prevState now l₂ _ _ hnot]
  unfold repoStep
  rw [hok, lookupA_setA, if_pos rfl]

/-- In a fresh bucket, an entry with a path that does not recur later in the
tree maps to exactly the recorded cache entry. -/
theorem bucketFor_lookup (prevState : ScrapeState) (fullName : String)
    (now : Nat) (md : List TreeEntry) (t : TreeEntry)
    (hmem : t ∈ md) (hnodup : (md.map TreeEntry.path).Nodup) :
    lookupA (bucketFor prevState fullName now md) t.path =
      some (entryFor prevState fullName now t) := by
  obtain ⟨l₁, l₂, rfl⟩ := List.append_of_mem hmem
  have hnot : t.path ∉ l₂.map TreeEntry.path := by
    simp only [List.map_append, List.map_cons] at hnodup
    exact (List.nodup_cons.1 hnodup.of_append_right).1
  exact lookupA_foldl_setA_self TreeEntry.path
    (entryFor prevState fullName now) l₁ l₂ t [] hnot

/-- The keys of a fresh bucket are exactly the paths of the tree walk. -/
theorem bucketFor_isSome (prevState : ScrapeState) (fullName : String)
    (now : Nat) (md : List TreeEntry) (p : String) :
    (lookupA (bucketFor prevState fullName now md) p).isSome ↔
      p ∈ md.map TreeEntry.path := by
  have := lookupA_foldl_setA_isSome TreeEntry.path
    (entryFor prevState fullName now) md [] p
  simpa [bucketFor, lookupA] using this

/-! ## Output membership lemmas -/

theorem mem_filesSpec (remote : Remote) (prevState : ScrapeState)
    (rs : List RepoD) (f : ScrapedFile) :
    f ∈ filesSpec remote prevState rs ↔
      ∃ r ∈ rs, f ∈ repoFiles remote prevState r := by
  simp [filesSpec, List.mem_flatMap]

theorem mem_repoFiles (remote : Remote) (prevState : ScrapeState)
    (r : RepoD) (f : ScrapedFile) :
    f ∈ repoFiles remote prevState r ↔
      ∃ md, treeOf remote r = .ok md ∧ ∃ t ∈ md,
        fileRecord remote prevState r.full_name (ownerOf r.full_name)
          (repoNameOf r.full_name) t = some f := by
  unfold repoFiles
  cases ht : treeOf remote r with
  | error e => simp
  | ok md => simp [List.mem_filterMap]

theorem fileRecord_some {remote : Remote} {prevState : ScrapeState}
    {fullName owner repoName : String} {t : TreeEntry} {f : ScrapedFile}
    (h : fileRecord remote prevState fullName owner repoName t = some f) :
    willSkip prevState fullName t = false ∧ f.repo = fullName ∧
      f.path = t.path ∧ f.sha = t.sha ∧
      remote.getContent owner repoName t.path = .ok f.content := by
  cases hws : willSkip prevState fullName t with
  | true => simp [fileRecord, hws] at h
  | false =>
    cases hc : remote.getContent owner repoName t.path with
    | error e => simp [fileRecord, fetchRecord, hws, hc] at h
    | ok content =>
      simp only [fileRecord, fetchRecord, hws, hc, Bool.false_eq_true,
        if_false] at h
      obtain rfl := (Option.some_injective _ h).symm
      simp [hc]

theorem fileRecord_of_fetch {remote : Remote} {prevState : ScrapeState}
    {fullName owner repoName : String} {t : TreeEntry} {content : String}
    (hws : willSkip prevState fullName t = false)
    (hc : remote.getContent owner repoName t.path = .ok content) :
    fileRecord remote prevState fullName owner repoName t =
      some { repo := fullName, path := t.path, content := content,
             sha := t.sha } := by
  simp [fileRecord, fetchRecord, hws, hc]

theorem fileRecord_of_skip {remote : Remote} {prevState : ScrapeState}
    {fullName owner repoName : String} {t : TreeEntry}
    (hws : willSkip prevState fullName t = true) :
    fileRecord remote prevState fullName owner repoName t = none := by
  simp [fileRecord, hws]

/-! ## Progress-event invariant lemmas -/

theorem EventsInv.step {allowed : List String}
    {fetched skipped total : Nat} {results : List ScrapedFile}
    {events : List ScrapeProgress}
    (h : EventsInv allowed fetched skipped total results events)
    (e : ScrapeProgress) {fetched' skipped' total' : Nat}
    {results' : List ScrapedFile}
    (hph : goodPhase e)
    (h1 : fetched + skipped ≤ e.fetched + e.skipped)
    (h2 : e.fetched + e.skipped ≤ fetched' + skipped')
    (h3 : total ≤ e.total) (h4 : e.total ≤ total')
    (hrn : ∀ rn, e.repo = some rn → rn ∈ allowed)
    (hcnt : results'.length = fetched') :
    EventsInv allowed fetched' skipped' total' results' (events ++ [e]) := by
  constructor
  · intro x hx
    rcases List.mem_append.1 hx with hx | hx
    · exact h.phases x hx
    · obtain rfl := List.mem_singleton.1 hx
      exact hph
  · rw [List.chain'_append]
    refine ⟨h.mono, List.chain'_singleton e, ?_⟩
    intro x hx y hy
    obtain ⟨hne, rfl⟩ := List.mem_getLast?_eq_getLast hx
    obtain rfl : e = y := by simpa using hy
    have hb := h.bounded _ (List.getLast_mem hne)
    exact ⟨le_trans hb.1 h1, le_trans hb.2 h3⟩
  · intro x hx
    rcases List.mem_append.1 hx with hx | hx
    · have hb := h.bounded x hx
      exact ⟨le_trans hb.1 (le_trans h1 h2), le_trans hb.2 (le_trans h3 h4)⟩
    · obtain rfl := List.mem_singleton.1 hx
      exact ⟨h2, h4⟩
  · intro x hx
    rcases List.mem_append.1 hx with hx | hx
    · exact h.repoNames x hx
    · obtain rfl := List.mem_singleton.1 hx
      exact hrn
  · exact hcnt

theorem EventsInv.weaken_total {allowed : List String}
    {fetched skipped total total' : Nat} {results : List ScrapedFile}
    {events : List ScrapeProgress}
    (h : EventsInv allowed fetched skipped total results events)
    (hle : total ≤ total') :
    EventsInv allowed fetched skipped total' results events := by
  refine ⟨h.phases, h.mono, ?_, h.repoNames, h.count⟩
  intro e he
  exact ⟨(h.bounded e he).1, le_trans (h.bounded e he).2 hle⟩

theorem processFile_inv {remote : Remote} {prevState : ScrapeState}
    {fullName owner repoName : String} {now total : Nat}
    {allowed : List String} (hfull : fullName ∈ allowed)
    {st : FileSt} (file : TreeEntry)
    (h : EventsInv allowed st.fetched st.skipped total st.results
      st.events) :
    EventsInv allowed
      (processFile remote prevState fullName owner repoName now total
        st file).fetched
      (processFile remote prevState fullName owner repoName now total
        st file).skipped
      total
      (processFile remote prevState fullName owner repoName now total
        st file).results
      (processFile remote prevState fullName owner repoName now total
        st file).events := by
  have hrn : ∀ rn : String, some fullName = some rn → rn ∈ allowed := by
    intro rn hrn
    obtain rfl := Option.some_injective _ hrn
    exact hfull
  cases hpe : prevEntryFor prevState fullName file.path with
  | some pe =>
    by_cases hsha : pe.sha = file.sha
    · simp only [processFile, hpe, if_pos hsha]
      exact h.step _ (Or.inr (Or.inr (Or.inl rfl))) (Nat.le_succ _)
        (le_refl _) (le_refl _) (le_refl _) hrn h.count
    · simp only [processFile, hpe, if_neg hsha, fetchFile]
      cases hc : remote.getContent owner repoName file.path with
      | ok content =>
        simp only [hc]
        refine h.step _ (Or.inr (Or.inr (Or.inl rfl))) (le_refl _)
          (Nat.add_le_add_right (Nat.le_succ _) _) (le_refl _) (le_refl _)
          hrn ?_
        simp [h.count]
      | error e =>
        simp only [hc]
        exact h.step _ (Or.inr (Or.inr (Or.inl rfl))) (le_refl _)
          (le_refl _) (le_refl _) (le_refl _) hrn h.count
  | none =>
    simp only [processFile, hpe, fetchFile]
    cases hc : remote.getContent owner repoName file.path with
    | ok content =>
      refine h.step _ (Or.inr (Or.inr (Or.inl rfl))) (le_refl _)
        (Nat.add_le_add_right (Nat.le_succ _) _) (le_refl _) (le_refl _)
        hrn ?_
      simp [h.count]
    | error e =>
      exact h.step _ (Or.inr (Or.inr (Or.inl rfl))) (le_refl _)
        (le_refl _) (le_refl _) (le_refl _) hrn h.count

theorem fileFold_inv {remote : Remote} {prevState : ScrapeState}
    {fullName owner repoName : String} {now total : Nat}
    {allowed : List String} (hfull : fullName ∈ allowed)
    (md : List TreeEntry) {st : FileSt}
    (h : EventsInv allowed st.fetched st.skipped total st.results
      st.events) :
    EventsInv allowed
      (md.foldl (processFile remote prevState fullName owner repoName now
        total) st).fetched
      (md.foldl (processFile remote prevState fullName owner repoName now
        total) st).skipped
      total
      (md.foldl (processFile remote prevState fullName owner repoName now
        total) st).results
      (md.foldl (processFile remote prevState fullName owner repoName now
        total) st).events := by
  induction md generalizing st with
  | nil => exact h
  | cons f md ih => exact ih (processFile_inv hfull f h)

theorem processRepo_inv {remote : Remote} {prevState : ScrapeState}
    {now : Nat} {allowed : List String} {st : St} (r : RepoD)
    (hfull : r.full_name ∈ allowed)
    (h : EventsInv allowed st.fetched st.skipped st.total st.results
      st.events) :
    EventsInv allowed
      (processRepo remote prevState now st r).fetched
      (processRepo remote prevState now st r).skipped
      (processRepo remote prevState now st r).total
      (processRepo remote prevState now st r).results
      (processRepo remote prevState now st r).events := by
  have hrn : ∀ rn : String, some r.full_name = some rn → rn ∈ allowed := by
    intro rn hrn
    obtain rfl := Option.some_injective _ hrn
    exact hfull
  have htree : EventsInv allowed st.fetched st.skipped st.total st.results
      (st.events ++
        [{ phase := .tree, repo := some r.full_name, fetched := st.fetched,
           skipped := st.skipped, total := st.total, message := none }]) :=
    h.step _ (Or.inr (Or.inl rfl)) (le_refl _) (le_refl _) (le_refl _)
      (le_refl _) hrn h.count
  cases ht : remote.getTree (ownerOf r.full_name) (repoNameOf r.full_name)
      r.default_branch with
  | error e => simpa only [processRepo, ht] using htree
  | ok md =>
    simp only [processRepo, ht]
    exact fileFold_inv hfull md
      (htree.weaken_total (Nat.le_add_right st.total md.length))

theorem repoFold_inv {remote : Remote} {prevState : ScrapeState}
    {now : Nat} {allowed : List String} (rs : List RepoD)
    (hsub : ∀ r ∈ rs, r.full_name ∈ allowed) {st : St}
    (h : EventsInv allowed st.fetched st.skipped st.total st.results
      st.events) :
    EventsInv allowed
      (rs.foldl (processRepo remote prevState now) st).fetched
      (rs.foldl (processRepo remote prevState now) st).skipped
      (rs.foldl (processRepo remote prevState now) st).total
      (rs.foldl (processRepo remote prevState now) st).results
      (rs.foldl (processRepo remote prevState now) st).events := by
  induction rs generalizing st with
  | nil => exact h
  | cons r rs ih =>
    exact ih (fun r' hr' => hsub r' (List.mem_cons_of_mem _ hr'))
      (processRepo_inv r (hsub r (List.mem_cons_self r rs)) h)

/-- Full characterization of the emitted trace of one successful run:
the final counters exist, the last event is the `done` event with them,
`fetched` counts exactly the returned files, the counters of every event are
bounded by the final ones, the trace is monotone, each event has a
non-`error` phase, and each named repository passed the filter. -/
theorem scrape_trace (config : ScrapeConfig) (remote : Remote) (now : Nat)
    (prevState : ScrapeState) (allRepos : List RepoD)
    (h : remote.listRepos = .ok allRepos) :
    ∃ F S T : Nat,
      F = (runFiles config remote now prevState).length ∧
      (runEvents config remote now prevState).getLast? =
        some { phase := .done, repo := none, fetched := F, skipped := S,
               total := T, message := none } ∧
      (runEvents config remote now prevState).Chain' evLE ∧
      (∀ e ∈ runEvents config remote now prevState,
        e.fetched + e.skipped ≤ F + S ∧ e.total ≤ T) ∧
      (∀ e ∈ runEvents config remote now prevState, goodPhase e) ∧
      (∀ e ∈ runEvents config remote now prevState, ∀ rn,
        e.repo = some rn →
          rn ∈ (filteredRepos config allRepos).map RepoD.full_name) := by
  have h0 : EventsInv ((filteredRepos config allRepos).map RepoD.full_name)
      (initialSt config).fetched (initialSt config).skipped
      (initialSt config).total (initialSt config).results
      (initialSt config).events := by
    refine ⟨?_, ?_, ?_, ?_, rfl⟩
    · intro e he
      obtain rfl := List.mem_singleton.1 he
      exact Or.inl rfl
    · exact List.chain'_singleton _
    · intro e he
      obtain rfl := List.mem_singleton.1 he
      exact ⟨le_refl _, le_refl _⟩
    · intro e he rn hrn
      obtain rfl := List.mem_singleton.1 he
      cases hrn
  have hfold : EventsInv
      ((filteredRepos config allRepos).map RepoD.full_name)
      ((filteredRepos config allRepos).foldl
        (processRepo remote prevState now) (initialSt config)).fetched
      ((filteredRepos config allRepos).foldl
        (processRepo remote prevState now) (initialSt config)).skipped
      ((filteredRepos config allRepos).foldl
        (processRepo remote prevState now) (initialSt config)).total
      ((filteredRepos config allRepos).foldl
        (processRepo remote prevState now) (initialSt config)).results
      ((filteredRepos config allRepos).foldl
        (processRepo remote prevState now) (initialSt config)).events :=
    repoFold_inv (filteredRepos config allRepos)
      (fun r hr => List.mem_map_of_mem RepoD.full_name hr) h0
  have hfull := hfold.step
    (doneEvent ((filteredRepos config allRepos).foldl
      (processRepo remote prevState now) (initialSt config)))
    (Or.inr (Or.inr (Or.inr rfl))) (le_refl _) (le_refl _) (le_refl _)
    (le_refl _) (fun rn hrn => by cases hrn) hfold.count
  have hev : runEvents config remote now prevState =
      ((filteredRepos config allRepos).foldl
        (processRepo remote prevState now) (initialSt config)).events ++
      [doneEvent ((filteredRepos config allRepos).foldl
        (processRepo remote prevState now) (initialSt config))] := by
    simp only [runEvents, scrapeOrg, h]
  have hfl : runFiles config remote now prevState =
      ((filteredRepos config allRepos).foldl
        (processRepo remote prevState now) (initialSt config)).results := by
    simp only [runFiles, scrapeOrg, h]
  rw [hev, hfl]
  exact ⟨_, _, _, hfold.count.symm, List.getLast?_concat _, hfull.mono,
    hfull.bounded, hfull.phases, hfull.repoNames⟩

/-! ## Provenance of output records -/

/-- Every returned file stems from a filtered repository with a successful
tree listing and a tree entry that was not skipped and whose fetch
succeeded. -/
theorem files_source (config : ScrapeConfig) (remote : Remote) (now : Nat)
    (prevState : ScrapeState) (allRepos : List RepoD)
    (hlist : remote.listRepos = .ok allRepos) {f : ScrapedFile}
    (hf : f ∈ runFiles config remote now prevState) :
    ∃ r ∈ filteredRepos config allRepos, ∃ md, treeOf remote r = .ok md ∧
      ∃ t ∈ md, f.repo = r.full_name ∧ f.path = t.path ∧ f.sha = t.sha ∧
        willSkip prevState r.full_name t = false ∧
        remote.getContent (ownerOf r.full_name) (repoNameOf r.full_name)
          t.path = .ok f.content := by
  rw [(scrape_char config remote now prevState allRepos hlist).1] at hf
  obtain ⟨r, hr, hfr⟩ := (mem_filesSpec _ _ _ _).1 hf
  obtain ⟨md, hok, t, ht, hrec⟩ := (mem_repoFiles _ _ _ _).1 hfr
  obtain ⟨hws, h1, h2, h3, h4⟩ := fileRecord_some hrec
  exact ⟨r, hr, md, hok, t, ht, h1, h2, h3, hws, h4⟩

/-- With unique repository names and unique tree paths, a returned file that
names repository `r` and path of `t` can only stem from `r` and `t`. -/
theorem files_unique_source (config : ScrapeConfig) (remote : Remote)
    (now : Nat) (prevState : ScrapeState) (allRepos : List RepoD)
    (hlist : remote.listRepos = .ok allRepos)
    (hnames : ((filteredRepos config allRepos).map RepoD.full_name).Nodup)
    (r : RepoD) (hr : r ∈ filteredRepos config allRepos)
    (md : List TreeEntry) (hok : treeOf remote r = .ok md)
    (hpaths : (md.map TreeEntry.path).Nodup)
    (t : TreeEntry) (ht : t ∈ md) {f : ScrapedFile}
    (hf : f ∈ runFiles config remote now prevState)
    (hrepo : f.repo = r.full_name) (hpath : f.path = t.path) :
    f.sha = t.sha ∧ willSkip prevState r.full_name t = false ∧
      remote.getContent (ownerOf r.full_name) (repoNameOf r.full_name)
        t.path = .ok f.content := by
  obtain ⟨r', hr', md', hok', t', ht', h1, h2, h3, hws, hc⟩ :=
    files_source config remote now prevState allRepos hlist hf
  obtain rfl : r' = r :=
    List.inj_on_of_nodup_map hnames hr' hr (by rw [← h1, hrepo])
  rw [hok] at hok'
  obtain rfl : md = md' := by
    injection hok'
  obtain rfl : t' = t :=
    List.inj_on_of_nodup_map hpaths ht' ht (by rw [← h2, hpath])
  exact ⟨h3, hws, hc⟩

/-! ## The claims -/

/-- C1: for every run of `scrapeOrg`, every repository whose tree listing
succeeded and every tree entry `t` of it: (when content fetches succeed) the
engine fetches `t`'s content and appends a Scraped File Record for it iff
`t`'s path is absent from the previous store's bucket for that repository or
the previous entry's fingerprint differs from `t`'s; files whose fingerprint
is unchanged are skipped and never appear in the returned file list. -/
theorem c1_fetch_iff_changed (config : ScrapeConfig) (remote : Remote)
    (now : Nat) (prevState : ScrapeState) (allRepos : List RepoD)
    (hlist : remote.listRepos = .ok allRepos)
    (hnames : ((filteredRepos config allRepos).map RepoD.full_name).Nodup)
    (r : RepoD) (hr : r ∈ filteredRepos config allRepos)
    (md : List TreeEntry) (hok : treeOf remote r = .ok md)
    (hpaths : (md.map TreeEntry.path).Nodup)
    (t : TreeEntry) (ht : t ∈ md) :
    ((∀ ow rn p, ∃ c, remote.getContent ow rn p = .ok c) →
      ((∃ c, ScrapedFile.mk r.full_name t.path c t.sha ∈
          runFiles config remote now prevState) ↔
        willSkip prevState r.full_name t = false)) ∧
    (willSkip prevState r.full_name t = true →
      ∀ f ∈ runFiles config remote now prevState,
        ¬(f.repo = r.full_name ∧ f.path = t.path)) := by
  constructor
  · intro hfetch
    constructor
    · rintro ⟨c, hc⟩
      exact (files_unique_source config remote now prevState allRepos hlist
        hnames r hr md hok hpaths t ht hc rfl rfl).2.1
    · intro hws
      obtain ⟨c, hcc⟩ :=
        hfetch (ownerOf r.full_name) (repoNameOf r.full_name) t.path
      refine ⟨c, ?_⟩
      rw [(scrape_char config remote now prevState allRepos hlist).1]
      exact (mem_filesSpec _ _ _ _).2
        ⟨r, hr, (mem_repoFiles _ _ _ _).2
          ⟨md, hok, t, ht, fileRecord_of_fetch hws hcc⟩⟩
  · rintro hws f hf ⟨h1, h2⟩
    have hcontra := (files_unique_source config remote now prevState
      allRepos hlist hnames r hr md hok hpaths t ht hf h1 h2).2.1
    rw [hws] at hcontra
    cases hcontra

/-- Witness for C1 at the concrete test fixture: `README.md` of `repo-a` is
absent from an empty previous store, so its record is returned. -/
theorem c1_witness :
    (∃ c, ScrapedFile.mk "test-org/repo-a" "README.md" c "sha-readme-a" ∈
      runFiles cfgX remX 100 emptyState) ↔
    willSkip emptyState "test-org/repo-a"
      (TreeEntry.mk "README.md" "sha-readme-a" "blob") = false :=
  (c1_fetch_iff_changed cfgX remX 100 emptyState [repoA, repoB] rfl
    (by decide) repoA (by decide) treeA rfl (by decide)
    (TreeEntry.mk "README.md" "sha-readme-a" "blob")
    (by decide)).1 (fun _ _ _ => ⟨_, rfl⟩)

/-- C3: for every processed tree entry, the new store's bucket maps the
entry's path to the entry's current fingerprint, and its timestamp carries
the previous store's timestamp forward unmodified when a previous entry
exists with an equal fingerprint (falling back to `now` only if that
previous timestamp field was itself missing), and is `now` when the path is
new or the fingerprint changed. -/
theorem c3_cache_entry (config : ScrapeConfig) (remote : Remote)
    (now : Nat) (prevState : ScrapeState) (allRepos : List RepoD)
    (hlist : remote.listRepos = .ok allRepos)
    (hnames : ((filteredRepos config allRepos).map RepoD.full_name).Nodup)
    (r : RepoD) (hr : r ∈ filteredRepos config allRepos)
    (md : List TreeEntry) (hok : treeOf remote r = .ok md)
    (hpaths : (md.map TreeEntry.path).Nodup)
    (t : TreeEntry) (ht : t ∈ md) :
    ∃ bucket : RepoCache,
      lookupA (runState config remote now prevState).repos r.full_name =
        some bucket ∧
      lookupA bucket.files t.path = some
        (FileEntry.mk t.sha
          (match prevEntryFor prevState r.full_name t.path with
           | some pe =>
             if pe.sha = t.sha then some (pe.lastFetched.getD now)
             else some now
           | none => some now)) := by
  have hst := (scrape_char config remote now prevState allRepos hlist).2.1
  refine ⟨RepoCache.mk (bucketFor prevState r.full_name now md), ?_, ?_⟩
  · rw [hst]
    exact reposSpec_lookup remote prevState now _ r md hr hnames hok
  · show lookupA (bucketFor prevState r.full_name now md) t.path = _
    rw [bucketFor_lookup prevState r.full_name now md t ht hpaths]
    cases hpe : prevEntryFor prevState r.full_name t.path with
    | none => simp [entryFor, hpe]
    | some pe =>
      by_cases hsha : pe.sha = t.sha <;> simp [entryFor, hpe, hsha]

/-- Witness for C3: on the fixture with a previous entry of equal
fingerprint, the timestamp `50` is carried forward. -/
theorem c3_witness :
    ∃ bucket : RepoCache,
      lookupA (runState cfgX remX 100 prevS).repos "test-org/repo-a" =
        some bucket ∧
      lookupA bucket.files "README.md" = some
        (FileEntry.mk "sha-readme-a"
          (match prevEntryFor prevS "test-org/repo-a" "README.md" with
           | some pe =>
             if pe.sha = "sha-readme-a" then some (pe.lastFetched.getD 100)
             else some 100
           | none => some 100)) :=
  c3_cache_entry cfgX remX 100 prevS [repoA, repoB] rfl (by decide)
    repoA (by decide) treeA rfl (by decide)
    (TreeEntry.mk "README.md" "sha-readme-a" "blob") (by decide)

/-- C4: for every repository whose tree listing succeeded, the new store's
bucket contains exactly the paths of the current tree walk, so paths present
in the previous store but absent from the current tree are absent from the
new bucket. -/
theorem c4_bucket_is_tree (config : ScrapeConfig) (remote : Remote)
    (now : Nat) (prevState : ScrapeState) (allRepos : List RepoD)
    (hlist : remote.listRepos = .ok allRepos)
    (hnames : ((filteredRepos config allRepos).map RepoD.full_name).Nodup)
    (r : RepoD) (hr : r ∈ filteredRepos config allRepos)
    (md : List TreeEntry) (hok : treeOf remote r = .ok md) :
    ∃ bucket : RepoCache,
      lookupA (runState config remote now prevState).repos r.full_name =
        some bucket ∧
      ∀ p : String,
        (lookupA bucket.files p).isSome ↔ p ∈ md.map TreeEntry.path := by
  have hst := (scrape_char config remote now prevState allRepos hlist).2.1
  refine ⟨RepoCache.mk (bucketFor prevState r.full_name now md), ?_, ?_⟩
  · rw [hst]
    exact reposSpec_lookup remote prevState now _ r md hr hnames hok
  · exact fun p => bucketFor_isSome prevState r.full_name now md p

/-- Witness for C4: the previous state holds `old.md` for `repo-a`, the
current tree does not; the new bucket's keys are exactly the tree paths. -/
theorem c4_witness :
    ∃ bucket : RepoCache,
      lookupA (runState cfgX remX 100 prevS).repos "test-org/repo-a" =
        some bucket ∧
      ∀ p : String,
        (lookupA bucket.files p).isSome ↔ p ∈ treeA.map TreeEntry.path :=
  c4_bucket_is_tree cfgX remX 100 prevS [repoA, repoB] rfl (by decide)
    repoA (by decide) treeA rfl

theorem entryFor_of_not_skip {prevState : ScrapeState} {fullName : String}
    {now : Nat} {t : TreeEntry}
    (h : willSkip prevState fullName t = false) :
    entryFor prevState fullName now t = FileEntry.mk t.sha (some now) := by
  unfold willSkip at h
  unfold entryFor
  cases hpe : prevEntryFor prevState fullName t.path with
  | none => rfl
  | some pe =>
    rw [hpe] at h
    simp only [decide_eq_false_iff_not] at h
    simp [h]

/-- C6: if the content fetch for one file fails, `scrapeOrg` neither raises
nor aborts: the file is absent from the returned list, yet the new bucket
still records the path with the fingerprint observed from the tree entry and
timestamp `now`, so a later run with this store skips the file. -/
theorem c6_fetch_failure_recorded (config : ScrapeConfig) (remote : Remote)
    (now : Nat) (prevState : ScrapeState) (allRepos : List RepoD)
    (hlist : remote.listRepos = .ok allRepos)
    (hnames : ((filteredRepos config allRepos).map RepoD.full_name).Nodup)
    (r : RepoD) (hr : r ∈ filteredRepos config allRepos)
    (md : List TreeEntry) (hok : treeOf remote r = .ok md)
    (hpaths : (md.map TreeEntry.path).Nodup)
    (t : TreeEntry) (ht : t ∈ md)
    (hws : willSkip prevState r.full_name t = false) (e : String)
    (hfail : remote.getContent (ownerOf r.full_name)
      (repoNameOf r.full_name) t.path = .error e) :
    (scrapeOrg config remote now prevState).isOk = true ∧
    (∀ f ∈ runFiles config remote now prevState,
      ¬(f.repo = r.full_name ∧ f.path = t.path)) ∧
    (∃ bucket : RepoCache,
      lookupA (runState config remote now prevState).repos r.full_name =
        some bucket ∧
      lookupA bucket.files t.path =
        some (FileEntry.mk t.sha (some now))) ∧
    willSkip (runState config remote now prevState) r.full_name t =
      true := by
  have hst := (scrape_char config remote now prevState allRepos hlist).2.1
  have hbucket : lookupA (runState config remote now prevState).repos
      r.full_name =
      some (RepoCache.mk (bucketFor prevState r.full_name now md)) := by
    rw [hst]
    exact reposSpec_lookup remote prevState now _ r md hr hnames hok
  have hfile : lookupA (bucketFor prevState r.full_name now md) t.path =
      some (FileEntry.mk t.sha (some now)) := by
    rw [bucketFor_lookup prevState r.full_name now md t ht hpaths,
      entryFor_of_not_skip hws]
  have hprev : prevEntryFor (runState config remote now prevState)
      r.full_name t.path = some (FileEntry.mk t.sha (some now)) := by
    unfold prevEntryFor
    rw [hbucket]
    simpa using hfile
  refine ⟨?_, ?_, ⟨_, hbucket, hfile⟩, ?_⟩
  · simp only [scrapeOrg, hlist]
    rfl
  · rintro f hf ⟨h1, h2⟩
    have hcc := (files_unique_source config remote now prevState allRepos
      hlist hnames r hr md hok hpaths t ht hf h1 h2).2.2
    rw [hfail] at hcc
    cases hcc
  · unfold willSkip
    rw [hprev]
    simp

/-- Witness for C6: `docs/guide.md` fails to fetch against `remZ`; it is
absent from the output, yet recorded in the new bucket with its tree
fingerprint, so the next run would skip it. -/
theorem c6_witness :
    (scrapeOrg cfgX remZ 100 emptyState).isOk = true ∧
    (∀ f ∈ runFiles cfgX remZ 100 emptyState,
      ¬(f.repo = "test-org/repo-a" ∧ f.path = "docs/guide.md")) ∧
    (∃ bucket : RepoCache,
      lookupA (runState cfgX remZ 100 emptyState).repos "test-org/repo-a" =
        some bucket ∧
      lookupA bucket.files "docs/guide.md" =
        some (FileEntry.mk "sha-guide-a" (some 100))) ∧
    willSkip (runState cfgX remZ 100 emptyState) "test-org/repo-a"
      (TreeEntry.mk "docs/guide.md" "sha-guide-a" "blob") = true :=
  c6_fetch_failure_recorded cfgX remZ 100 emptyState [repoA, repoB] rfl
    (by decide) repoA (by decide) treeA rfl (by decide)
    (TreeEntry.mk "docs/guide.md" "sha-guide-a" "blob") (by decide)
    (by decide) "nope" rfl

theorem filteredRepos_append (config : ScrapeConfig) (l₁ l₂ : List RepoD) :
    filteredRepos config (l₁ ++ l₂) =
      filteredRepos config l₁ ++ filteredRepos config l₂ := by
  unfold filteredRepos
  cases config.repoFilter with
  | none => rfl
  | some f => simp [List.filter_append]

theorem mem_of_mem_filteredRepos {config : ScrapeConfig}
    {allRepos : List RepoD} {r : RepoD}
    (h : r ∈ filteredRepos config allRepos) : r ∈ allRepos := by
  unfold filteredRepos at h
  cases hc : config.repoFilter with
  | none =>
    rw [hc] at h
    exact h
  | some f =>
    rw [hc] at h
    exact List.mem_of_mem_filter h

theorem repoFiles_of_error {remote : Remote} {prevState : ScrapeState}
    {r : RepoD} {e : String} (h : treeOf remote r = .error e) :
    repoFiles remote prevState r = [] := by
  unfold repoFiles
  rw [h]

theorem filesSpec_append (remote : Remote) (prevState : ScrapeState)
    (l₁ l₂ : List RepoD) :
    filesSpec remote prevState (l₁ ++ l₂) =
      filesSpec remote prevState l₁ ++ filesSpec remote prevState l₂ := by
  simp [filesSpec]

theorem filesSpec_update_listRepos (remote : Remote)
    (x : Except String (List RepoD)) (prevState : ScrapeState)
    (rs : List RepoD) :
    filesSpec { remote with listRepos := x } prevState rs =
      filesSpec remote prevState rs := rfl

theorem reposSpec_update_listRepos (remote : Remote)
    (x : Except String (List RepoD)) (prevState : ScrapeState) (now : Nat)
    (rs : List RepoD) :
    reposSpec { remote with listRepos := x } prevState now rs =
      reposSpec remote prevState now rs := rfl

theorem reposFold_failed_singleton (remote : Remote)
    (prevState : ScrapeState) (now : Nat) (config : ScrapeConfig)
    (m : AList RepoCache) (b : RepoD) (e : String)
    (hfail : treeOf remote b = .error e) :
    (filteredRepos config [b]).foldl (repoStep remote prevState now) m =
      m := by
  unfold filteredRepos
  cases config.repoFilter with
  | none => simp [repoStep, hfail]
  | some f =>
    cases hfb : f b.name <;> simp [List.filter_cons, hfb, repoStep, hfail]

/-- C5: if the tree listing of one repository fails, `scrapeOrg` does not
raise; the failed repository contributes no bucket and no output files, and
the run's files and state are the same as if the repository were absent from
the listing. -/
theorem c5_repo_failure_isolated (config : ScrapeConfig) (remote : Remote)
    (now : Nat) (prevState : ScrapeState) (l₁ l₂ : List RepoD) (b : RepoD)
    (hlist : remote.listRepos = .ok (l₁ ++ b :: l₂)) (e : String)
    (hfail : treeOf remote b = .error e)
    (hname : b.full_name ∉ (l₁ ++ l₂).map RepoD.full_name) :
    (scrapeOrg config remote now prevState).isOk = true ∧
    runFiles config remote now prevState =
      runFiles config { remote with listRepos := .ok (l₁ ++ l₂) } now
        prevState ∧
    runState config remote now prevState =
      runState config { remote with listRepos := .ok (l₁ ++ l₂) } now
        prevState ∧
    lookupA (runState config remote now prevState).repos b.full_name =
      none ∧
    (∀ f ∈ runFiles config remote now prevState,
      f.repo ≠ b.full_name) := by
  have hchar := scrape_char config remote now prevState (l₁ ++ b :: l₂)
    hlist
  have hchar' := scrape_char config { remote with listRepos := .ok (l₁ ++ l₂) }
    now prevState (l₁ ++ l₂) rfl
  have hsplit : filteredRepos config (l₁ ++ b :: l₂) =
      filteredRepos config l₁ ++
        (filteredRepos config [b] ++ filteredRepos config l₂) := by
    rw [show l₁ ++ b :: l₂ = l₁ ++ ([b] ++ l₂) from rfl,
      filteredRepos_append, filteredRepos_append]
  have hmidfiles : filesSpec remote prevState (filteredRepos config [b]) =
      [] := by
    unfold filteredRepos
    cases config.repoFilter with
    | none => simp [filesSpec, repoFiles_of_error hfail]
    | some f =>
      cases hfb : f b.name <;>
        simp [List.filter_cons, hfb, filesSpec, repoFiles_of_error hfail]
  have hfiles : runFiles config remote now prevState =
      runFiles config { remote with listRepos := .ok (l₁ ++ l₂) } now
        prevState := by
    rw [hchar.1, hchar'.1, hsplit, filteredRepos_append,
      filesSpec_append, filesSpec_append, filesSpec_append, hmidfiles]
    rw [List.nil_append]
    rfl
  have hrepos : (runState config remote now prevState).repos =
      (runState config { remote with listRepos := .ok (l₁ ++ l₂) } now
        prevState).repos := by
    rw [hchar.2.1, hchar'.2.1, hsplit, filteredRepos_append]
    unfold reposSpec
    rw [List.foldl_append, List.foldl_append, List.foldl_append,
      reposFold_failed_singleton remote prevState now config _ b e hfail]
    rfl
  refine ⟨?_, hfiles, ?_, ?_, ?_⟩
  · simp only [scrapeOrg, hlist]
    rfl
  · have e1 : runState config remote now prevState =
        ScrapeState.mk (runState config remote now prevState).repos
          (runState config remote now prevState).lastScrape := rfl
    have e2 : runState config { remote with listRepos := .ok (l₁ ++ l₂) }
        now prevState =
        ScrapeState.mk
          (runState config { remote with listRepos := .ok (l₁ ++ l₂) } now
            prevState).repos
          (runState config { remote with listRepos := .ok (l₁ ++ l₂) } now
            prevState).lastScrape := rfl
    rw [e1, e2, hrepos, hchar.2.2, hchar'.2.2]
  · rw [hchar.2.1]
    have hnone : lookupA
        (reposSpec remote prevState now
          (filteredRepos config (l₁ ++ b :: l₂))) b.full_name =
        lookupA ([] : AList RepoCache) b.full_name := by
      apply reposFold_lookup_of_fail
      intro r hr hrfn
      rcases List.mem_append.1 (mem_of_mem_filteredRepos hr) with hrl | hrl
      · have hmem : r.full_name ∈ (l₁ ++ l₂).map RepoD.full_name := by
          rw [List.map_append]
          exact List.mem_append_left _
            (List.mem_map_of_mem RepoD.full_name hrl)
        exact absurd (hrfn ▸ hmem) hname
      · rcases List.mem_cons.1 hrl with rfl | hrl
        · exact ⟨e, hfail⟩
        · have hmem : r.full_name ∈ (l₁ ++ l₂).map RepoD.full_name := by
            rw [List.map_append]
            exact List.mem_append_right _
              (List.mem_map_of_mem RepoD.full_name hrl)
          exact absurd (hrfn ▸ hmem) hname
    exact hnone
  · intro f hf hrepo
    obtain ⟨r, hr, md, hok, t, ht, h1, h2, h3, hws, hc⟩ :=
      files_source config remote now prevState (l₁ ++ b :: l₂) hlist hf
    have hrfn : r.full_name = b.full_name := by rw [← h1, hrepo]
    rcases List.mem_append.1 (mem_of_mem_filteredRepos hr) with hrl | hrl
    · have hmem : r.full_name ∈ (l₁ ++ l₂).map RepoD.full_name := by
        rw [List.map_append]
        exact List.mem_append_left _
          (List.mem_map_of_mem RepoD.full_name hrl)
      exact absurd (hrfn ▸ hmem) hname
    · rcases List.mem_cons.1 hrl with rfl | hrl
      · rw [hfail] at hok
        cases hok
      · have hmem : r.full_name ∈ (l₁ ++ l₂).map RepoD.full_name := by
          rw [List.map_append]
          exact List.mem_append_right _
            (List.mem_map_of_mem RepoD.full_name hrl)
        exact absurd (hrfn ▸ hmem) hname

/-- Witness for C5: `repo-b`'s tree listing fails against `remY`; the run
still succeeds and matches a run without `repo-b`. -/
theorem c5_witness :
    (scrapeOrg cfgX remY 100 emptyState).isOk = true ∧
    runFiles cfgX remY 100 emptyState =
      runFiles cfgX { remY with listRepos := .ok ([repoA] ++ []) } 100
        emptyState ∧
    runState cfgX remY 100 emptyState =
      runState cfgX { remY with listRepos := .ok ([repoA] ++ []) } 100
        emptyState ∧
    lookupA (runState cfgX remY 100 emptyState).repos repoB.full_name =
      none ∧
    (∀ f ∈ runFiles cfgX remY 100 emptyState,
      f.repo ≠ repoB.full_name) :=
  c5_repo_failure_isolated cfgX remY 100 emptyState [repoA] [] repoB rfl
    "boom" rfl (by decide)

/-- C7: when a repository-name filter is supplied, only repositories whose
short name matches are processed: no output record and no progress event
names a repository that does not match the filter. -/
theorem c7_filter_correct (config : ScrapeConfig) (remote : Remote)
    (now : Nat) (prevState : ScrapeState) (allRepos : List RepoD)
    (φ : String → Bool)
    (hlist : remote.listRepos = .ok allRepos)
    (hfilter : config.repoFilter = some φ) :
    (∀ f ∈ runFiles config remote now prevState,
      ∃ r ∈ allRepos, φ r.name = true ∧ f.repo = r.full_name) ∧
    (∀ e ∈ runEvents config remote now prevState, ∀ rn, e.repo = some rn →
      ∃ r ∈ allRepos, φ r.name = true ∧ rn = r.full_name) := by
  have hfilt : filteredRepos config allRepos =
      allRepos.filter (fun r => φ r.name) := by
    unfold filteredRepos
    rw [hfilter]
  constructor
  · intro f hf
    obtain ⟨r, hr, _, _, _, _, h1, _⟩ :=
      files_source config remote now prevState allRepos hlist hf
    rw [hfilt] at hr
    obtain ⟨hmem, hφ⟩ := List.mem_filter.1 hr
    exact ⟨r, hmem, hφ, h1⟩
  · obtain ⟨F, S, T, _, _, _, _, _, hnames⟩ :=
      scrape_trace config remote now prevState allRepos hlist
    intro ev hev rn hrn
    have hin := hnames ev hev rn hrn
    rw [hfilt] at hin
    obtain ⟨r, hr, hfn⟩ := List.mem_map.1 hin
    obtain ⟨hmem, hφ⟩ := List.mem_filter.1 hr
    exact ⟨r, hmem, hφ, hfn.symm⟩

/-- Witness for C7: with a filter matching only `repo-a`, every output
record and every named event names `repo-a`. -/
theorem c7_witness :
    (∀ f ∈ runFiles cfgF remX 100 emptyState,
      ∃ r ∈ [repoA, repoB], decide (r.name = "repo-a") = true ∧
        f.repo = r.full_name) ∧
    (∀ e ∈ runEvents cfgF remX 100 emptyState, ∀ rn, e.repo = some rn →
      ∃ r ∈ [repoA, repoB], decide (r.name = "repo-a") = true ∧
        rn = r.full_name) :=
  c7_filter_correct cfgF remX 100 emptyState [repoA, repoB]
    (fun n => n = "repo-a") rfl rfl

/-- C8: across one run, `fetched + skipped` and the accumulated total are
non-decreasing along the emitted trace, and the final event is the `done`
event carrying the final counts (with `fetched` counting exactly the
returned files). -/
theorem c8_progress_monotone (config : ScrapeConfig) (remote : Remote)
    (now : Nat) (prevState : ScrapeState) (allRepos : List RepoD)
    (hlist : remote.listRepos = .ok allRepos) :
    ∃ F S T : Nat,
      (runEvents config remote now prevState).Chain' evLE ∧
      (∀ e ∈ runEvents config remote now prevState,
        e.fetched + e.skipped ≤ F + S ∧ e.total ≤ T) ∧
      (runEvents config remote now prevState).getLast? =
        some (ScrapeProgress.mk .done none F S T none) ∧
      F = (runFiles config remote now prevState).length := by
  obtain ⟨F, S, T, h1, h2, h3, h4, _, _⟩ :=
    scrape_trace config remote now prevState allRepos hlist
  exact ⟨F, S, T, h3, h4, h2, h1⟩

/-- Witness for C8 on the concrete fixture. -/
theorem c8_witness :
    ∃ F S T : Nat,
      (runEvents cfgX remX 100 emptyState).Chain' evLE ∧
      (∀ e ∈ runEvents cfgX remX 100 emptyState,
        e.fetched + e.skipped ≤ F + S ∧ e.total ≤ T) ∧
      (runEvents cfgX remX 100 emptyState).getLast? =
        some (ScrapeProgress.mk .done none F S T none) ∧
      F = (runFiles cfgX remX 100 emptyState).length :=
  c8_progress_monotone cfgX remX 100 emptyState [repoA, repoB] rfl

/-- C10: although the progress type declares an `error` phase, `scrapeOrg`
never emits it: every emitted event has phase `repos`, `tree`, `files` or
`done`. -/
theorem c10_no_error_phase (config : ScrapeConfig) (remote : Remote)
    (now : Nat) (prevState : ScrapeState) :
    ∀ e ∈ runEvents config remote now prevState,
      e.phase = Phase.repos ∨ e.phase = Phase.tree ∨
      e.phase = Phase.files ∨ e.phase = Phase.done := by
  cases hl : remote.listRepos with
  | error err =>
    intro e he
    simp [runEvents, scrapeOrg, hl] at he
  | ok allRepos =>
    obtain ⟨_, _, _, _, _, _, _, hph, _⟩ :=
      scrape_trace config remote now prevState allRepos hl
    exact hph

/-- Witness for C10: the `done` event of the fixture run is in the trace and
has one of the four emitted phases. -/
theorem c10_witness :
    (ScrapeProgress.mk .done none 3 0 3 none).phase = Phase.repos ∨
    (ScrapeProgress.mk .done none 3 0 3 none).phase = Phase.tree ∨
    (ScrapeProgress.mk .done none 3 0 3 none).phase = Phase.files ∨
    (ScrapeProgress.mk .done none 3 0 3 none).phase = Phase.done :=
  c10_no_error_phase cfgX remX 100 emptyState
    (ScrapeProgress.mk .done none 3 0 3 none) (by decide)

theorem entryFor_of_prev_eq {prevState : ScrapeState} {fullName : String}
    {now : Nat} {t : TreeEntry} {pe : FileEntry}
    (h : prevEntryFor prevState fullName t.path = some pe)
    (hsha : pe.sha = t.sha) :
    entryFor prevState fullName now t =
      FileEntry.mk t.sha (some (pe.lastFetched.getD now)) := by
  unfold entryFor
  rw [h]
  simp [hsha]

/-- C2 (amended): running `scrapeOrg` twice in a row against an unchanged
remote, with the second run's previous store set to the first run's returned
store, yields zero newly-fetched files, an unchanged repository map (all
fingerprint/timestamp pairs carried over exactly), and a `lastScrape` field
refreshed to the second run's clock. -/
theorem c2_idempotent_repos (config : ScrapeConfig) (remote : Remote)
    (now₁ now₂ : Nat) (prevState : ScrapeState) (allRepos : List RepoD)
    (hlist : remote.listRepos = .ok allRepos)
    (hnames : ((filteredRepos config allRepos).map RepoD.full_name).Nodup)
    (hpaths : ∀ r ∈ filteredRepos config allRepos,
      (((treeOf remote r).toOption.getD []).map TreeEntry.path).Nodup) :
    runFiles config remote now₂ (runState config remote now₁ prevState) =
      [] ∧
    (runState config remote now₂
      (runState config remote now₁ prevState)).repos =
      (runState config remote now₁ prevState).repos ∧
    (runState config remote now₂
      (runState config remote now₁ prevState)).lastScrape =
      some now₂ := by
  have hchar₁ := scrape_char config remote now₁ prevState allRepos hlist
  have hchar₂ := scrape_char config remote now₂
    (runState config remote now₁ prevState) allRepos hlist
  have key : ∀ r ∈ filteredRepos config allRepos, ∀ md,
      treeOf remote r = .ok md → ∀ t ∈ md,
      prevEntryFor (runState config remote now₁ prevState) r.full_name
        t.path = some (entryFor prevState r.full_name now₁ t) := by
    intro r hr md hok t ht
    have hpath : (md.map TreeEntry.path).Nodup := by
      have hnd := hpaths r hr
      rw [hok] at hnd
      simpa using hnd
    unfold prevEntryFor
    rw [hchar₁.2.1,
      reposSpec_lookup remote prevState now₁ _ r md hr hnames hok]
    simpa using bucketFor_lookup prevState r.full_name now₁ md t ht hpath
  have hskip : ∀ r ∈ filteredRepos config allRepos, ∀ md,
      treeOf remote r = .ok md → ∀ t ∈ md,
      willSkip (runState config remote now₁ prevState) r.full_name t =
        true := by
    intro r hr md hok t ht
    unfold willSkip
    rw [key r hr md hok t ht]
    simp [entryFor_sha]
  have hfiles : runFiles config remote now₂
      (runState config remote now₁ prevState) = [] := by
    rw [hchar₂.1]
    unfold filesSpec
    rw [List.flatMap_eq_nil_iff]
    intro r hr
    cases hok : treeOf remote r with
    | error e => exact repoFiles_of_error hok
    | ok md =>
      unfold repoFiles
      rw [hok, List.filterMap_eq_nil_iff]
      intro t ht
      exact fileRecord_of_skip (hskip r hr md hok t ht)
  have hentry : ∀ r ∈ filteredRepos config allRepos, ∀ md,
      treeOf remote r = .ok md → ∀ t ∈ md,
      entryFor (runState config remote now₁ prevState) r.full_name now₂ t =
        entryFor prevState r.full_name now₁ t := by
    intro r hr md hok t ht
    obtain ⟨x, hx⟩ :=
      entryFor_lastFetched_isSome prevState r.full_name now₁ t
    have hsha := entryFor_sha prevState r.full_name now₁ t
    rw [entryFor_of_prev_eq (key r hr md hok t ht) hsha, hx]
    simp only [Option.getD_some]
    rw [← hsha, ← hx]
  have hrepos : reposSpec remote (runState config remote now₁ prevState)
      now₂ (filteredRepos config allRepos) =
      reposSpec remote prevState now₁ (filteredRepos config allRepos) := by
    unfold reposSpec
    apply List.foldl_ext
    intro m r hr
    cases hok : treeOf remote r with
    | error e => simp [repoStep, hok]
    | ok md =>
      have hb : bucketFor (runState config remote now₁ prevState)
          r.full_name now₂ md = bucketFor prevState r.full_name now₁ md := by
        unfold bucketFor
        apply List.foldl_ext
        intro b t ht
        rw [hentry r hr md hok t ht]
      simp only [repoStep, hok, hb]
  refine ⟨hfiles, ?_, hchar₂.2.2⟩
  rw [hchar₂.2.1, hrepos, hchar₁.2.1]

/-- Counterexample to C2 as stated: with an unchanged remote, the second
run's files are empty but the returned store is not structurally equal to
the first run's, because `lastScrape` holds the second run's timestamp. -/
theorem c2_counterexample :
    runFiles cfgX remX 1 (runState cfgX remX 0 emptyState) = [] ∧
    runState cfgX remX 1 (runState cfgX remX 0 emptyState) ≠
      runState cfgX remX 0 emptyState := by
  decide

/-- Witness for the amended C2 on the concrete fixture. -/
theorem c2_witness :
    runFiles cfgX remX 1 (runState cfgX remX 0 emptyState) = [] ∧
    (runState cfgX remX 1 (runState cfgX remX 0 emptyState)).repos =
      (runState cfgX remX 0 emptyState).repos ∧
    (runState cfgX remX 1 (runState cfgX remX 0 emptyState)).lastScrape =
      some 1 :=
  c2_idempotent_repos cfgX remX 0 1 emptyState [repoA, repoB] rfl
    (by decide) (by decide)

end DocSlurp
